import Mathlib

/-!
Shallow embedding of the randomized hashing structures in
`src/hashing_with_chaining` (`main.rs`, and the `PerfectHashing` code of
`old_main.rs`).  Machine integers are modelled as `Nat` (or `Int` for the
signed sketch counters) with explicit reduction modulo `2 ^ 64`
(respectively `2 ^ 32`) wherever the Rust arithmetic wraps.  Fallible
operations — vector indexing that can panic, and randomized construction
loops that are fed from a finite supply of random draws — return `Option`.
-/

/-- Wrap-around modulus of Rust `u64` arithmetic. -/
def M64 : ℕ := 2 ^ 64

/-- Fuel-based floor base-2 logarithm (structural recursion, so the kernel can
evaluate it). -/
def log2Aux : ℕ → ℕ → ℕ
  | 0, _ => 0
  | fuel + 1, n => if 2 ≤ n then log2Aux fuel (n / 2) + 1 else 0

/-- `fn log2u(x: usize) -> u32 { x.ilog2() }` of the source: floor base-2
logarithm (Rust panics on `0`; here `log2u 0 = 0`, and every use below is
guarded so that the argument is positive). -/
def log2u (n : ℕ) : ℕ := log2Aux n n

/-- Multiply-shift hash, `struct SeededHash` in `main.rs` (fields `l`, `a`, `b`). -/
structure SeededHash where
  l : ℕ
  a : ℕ
  b : ℕ
deriving DecidableEq

/-- `SeededHash::new` in `main.rs`.  The RNG is external: the caller supplies the
two draws `ra = random_generator(1, 2^63)` and `rb = random_generator(0, 2^63)`.
An even `ra` is bumped to `ra + 1`. -/
def SeededHash.new (hash_len ra rb : ℕ) : SeededHash :=
  { l := hash_len, a := if ra % 2 = 0 then ra + 1 else ra, b := rb }

/-- `SeededHash::hash` in `main.rs`:
`self.a.wrapping_mul(x).wrapping_add(self.b).shr(64 - self.l)`. -/
def SeededHash.hash (h : SeededHash) (x : ℕ) : ℕ :=
  ((h.a * x % M64 + h.b) % M64) >>> (64 - h.l)

/-- Hashing-with-chaining table, `struct HwC` in `main.rs`.  Each bucket is the
flat `Vec<u64>` of the source: keys at even indices, accumulated values at the
adjacent odd indices. -/
structure HwC where
  vec : List (List ℕ)
  hash_function : SeededHash
deriving DecidableEq

/-- `HwC::new(size)` in `main.rs`: `size` empty buckets and a fresh hash with
`hash_len = log2u(size)` (`u64::ilog2`). -/
def HwC.new (size ra rb : ℕ) : HwC :=
  { vec := List.replicate size []
    hash_function := SeededHash.new (log2u size) ra rb }

/-- The bucket scan of `HwC::insert`: walk indices `0, 2, 4, …`; on a key match
add `value` (wrapping) into the adjacent slot, otherwise push `key, value` at
the end.  On a key match at an odd tail position the source would read
`vec[i+1]` out of bounds (a panic), modelled by `none`. -/
def bucketInsert (key value : ℕ) : List ℕ → Option (List ℕ)
  | [] => some [key, value]
  | [k] => if k = key then none else some [k, key, value]
  | k :: v :: rest =>
    if k = key then some (k :: ((v + value) % M64) :: rest)
    else (bucketInsert key value rest).map (fun r => k :: v :: r)

/-- `HwC::insert` in `main.rs`.  An out-of-range bucket index would panic,
modelled by `none`. -/
def HwC.insert (t : HwC) (key value : ℕ) : Option HwC :=
  let hash_val := t.hash_function.hash key
  if h : hash_val < t.vec.length then
    (bucketInsert key value (t.vec.get ⟨hash_val, h⟩)).map
      (fun b => { vec := t.vec.set hash_val b, hash_function := t.hash_function })
  else none

/-- The inner loop of `HwC::get_norm`: `sum += vec[i+1].pow(2)` for
`i = 0, 2, 4, …`, all in wrapping `u64` arithmetic; reading `vec[i+1]` past the
end (odd-length bucket) panics, modelled by `none`. -/
def addSquares (sum : ℕ) : List ℕ → Option ℕ
  | [] => some sum
  | [_] => none
  | _ :: v :: rest => addSquares ((sum + v ^ 2 % M64) % M64) rest

/-- Outer loop of `HwC::get_norm` over all buckets. -/
def normGo (sum : ℕ) : List (List ℕ) → Option ℕ
  | [] => some sum
  | b :: rest =>
    match addSquares sum b with
    | none => none
    | some s => normGo s rest

/-- `HwC::get_norm` in `main.rs`. -/
def HwC.get_norm (t : HwC) : Option ℕ := normGo 0 t.vec

/-- Run a sequence of `HwC::insert` calls. -/
def applyUpdates (t : HwC) : List (ℕ × ℕ) → Option HwC
  | [] => some t
  | u :: rest =>
    match t.insert u.1 u.2 with
    | none => none
    | some t2 => applyUpdates t2 rest

/-- The Mersenne prime `2u64.pow(31) - 1` of `IndependentHash::hash`. -/
def mersennePrime : ℕ := 2 ^ 31 - 1

/-- Four-wise independent polynomial hash, `struct IndependentHash` in
`main.rs`. -/
structure IndependentHash where
  a : ℕ
  b : ℕ
  c : ℕ
  d : ℕ
  l : ℕ
deriving DecidableEq

/-- `IndependentHash::new` in `main.rs`: each parameter is a separate draw
`random_generator(1, 2^31)`, supplied here by the caller. -/
def IndependentHash.new (hash_len ra rb rc rd : ℕ) : IndependentHash :=
  { a := ra, b := rb, c := rc, d := rd, l := hash_len }

/-- `IndependentHash::hash` in `main.rs`: the degree-3 polynomial evaluated with
wrapping `u64` steps, each reduced `% prime`; then
`h = k.shr(1) & (2^l - 1)` and `g = 2*((k as i64) & 1) - 1`. -/
def IndependentHash.hash (H : IndependentHash) (x : ℕ) : ℕ × ℤ :=
  let k1 := ((H.a * x % M64 + H.b) % M64) % mersennePrime
  let k2 := ((k1 * x % M64 + H.c) % M64) % mersennePrime
  let k3 := ((k2 * x % M64 + H.d) % M64) % mersennePrime
  (k3 >>> 1 &&& (2 ^ H.l - 1), 2 * ((k3 &&& 1 : ℕ) : ℤ) - 1)

/-- Count-sketch style norm sketch, `struct NormSketch` in `main.rs`. -/
structure NormSketch where
  vec : List ℤ
  hash_function : IndependentHash
deriving DecidableEq

/-- `NormSketch::new(r)` in `main.rs`: `r` zero counters and an
`IndependentHash::new(log2u(r))` built from the four supplied draws. -/
def NormSketch.new (r ra rb rc rd : ℕ) : NormSketch :=
  { vec := List.replicate r 0
    hash_function := IndependentHash.new (log2u r) ra rb rc rd }

/-- Wrap-around of Rust `i64` arithmetic: reduce into `[-2^63, 2^63)`. -/
def wrap64 (z : ℤ) : ℤ := (z + 2 ^ 63) % 2 ^ 64 - 2 ^ 63

/-- `NormSketch::update` in `main.rs`: `(h, g) = hash(key); vec[h] += g*value`
in wrapping `i64` arithmetic; an out-of-range `h` would panic, modelled by
`none`. -/
def NormSketch.update (s : NormSketch) (key : ℕ) (value : ℤ) : Option NormSketch :=
  let hg := s.hash_function.hash key
  if h : hg.1 < s.vec.length then
    some { vec := s.vec.set hg.1 (wrap64 (s.vec.get ⟨hg.1, h⟩ + wrap64 (hg.2 * value)))
           hash_function := s.hash_function }
  else none

/-- Run a sequence of `NormSketch::update` calls. -/
def applyNormUpdates (s : NormSketch) : List (ℕ × ℤ) → Option NormSketch
  | [] => some s
  | u :: rest =>
    match s.update u.1 u.2 with
    | none => none
    | some s2 => applyNormUpdates s2 rest

/-! ### The two-level perfect hashing of `old_main.rs` (32-bit draft) -/

/-- Wrap-around modulus of Rust `u32` arithmetic. -/
def M32 : ℕ := 2 ^ 32

/-- The constant `C: usize = 2` of `old_main.rs`. -/
def Cconst : ℕ := 2

/-- `struct SeededHash` of `old_main.rs` (32-bit). -/
structure SeededHash32 where
  l : ℕ
  a : ℕ
  b : ℕ
deriving DecidableEq

/-- `SeededHash::hash` of `old_main.rs`:
`a.wrapping_mul(x).wrapping_add(b).wrapping_shr(32 - l)`; `wrapping_shr`
masks the shift amount modulo 32. -/
def SeededHash32.hash (h : SeededHash32) (x : ℕ) : ℕ :=
  ((h.a * x % M32 + h.b) % M32) >>> ((32 - h.l) % 32)

/-- Inner sub-table, `struct Bucket` of `old_main.rs`: a dense `Vec<u32>` whose
slots hold `0` for "empty" (the sentinel) or a stored key. -/
structure Bucket where
  vec : List ℕ
  hash_function : SeededHash32
deriving DecidableEq

/-- `Bucket::insert` of `old_main.rs`: refuse (returning `false`) if the slot is
non-zero, else store the key.  An out-of-range slot would panic (`none`). -/
def Bucket.insert (b : Bucket) (elem : ℕ) : Option (Bucket × Bool) :=
  let i := b.hash_function.hash elem
  if h : i < b.vec.length then
    if b.vec.get ⟨i, h⟩ ≠ 0 then some (b, false)
    else some ({ vec := b.vec.set i elem, hash_function := b.hash_function }, true)
  else none

/-- `Bucket::query` of `old_main.rs`: `vec[hash(elem)] == elem`; out-of-range
indexing (e.g. on the empty sub-table) panics (`none`). -/
def Bucket.query (b : Bucket) (elem : ℕ) : Option Bool :=
  let i := b.hash_function.hash elem
  if h : i < b.vec.length then some (decide (b.vec.get ⟨i, h⟩ = elem)) else none

/-- The `for x in input_array` loop of `Bucket::new`: insert keys one by one;
the `Bool` records whether all inserts succeeded (`false` triggers a rebuild). -/
def Bucket.insertAll : Bucket → List ℕ → Option (Bucket × Bool)
  | b, [] => some (b, true)
  | b, x :: xs =>
    match b.insert x with
    | none => none
    | some (b2, true) => Bucket.insertAll b2 xs
    | some (b2, false) => some (b2, false)

/-- The rebuild loop of `Bucket::new` for a non-empty input: each attempt draws
one fresh `(a, b)` pair from the supply; in the source this loop is an
unbounded recursion, modelled here by returning `none` when the finite supply
of draws runs out. -/
def Bucket.build (input : List ℕ) (arrayLen : ℕ) : List (ℕ × ℕ) → Option (Bucket × List (ℕ × ℕ))
  | [] => none
  | (ra, rb) :: rest =>
    match Bucket.insertAll
        { vec := List.replicate arrayLen 0
          hash_function := { l := log2u arrayLen, a := ra, b := rb } } input with
    | none => none
    | some (b, true) => some (b, rest)
    | some (_, false) => Bucket.build input arrayLen rest

/-- `Bucket::new` of `old_main.rs`: sub-table size `2*C*n^2`; the `n = 0` case
returns an empty table whose `SeededHash::new(0)` still consumes one draw. -/
def Bucket.new (input : List ℕ) (draws : List (ℕ × ℕ)) : Option (Bucket × List (ℕ × ℕ)) :=
  let arrayLen := 2 * Cconst * input.length ^ 2
  if arrayLen = 0 then
    match draws with
    | [] => none
    | (ra, rb) :: rest => some ({ vec := [], hash_function := { l := 0, a := ra, b := rb } }, rest)
  else Bucket.build input arrayLen draws

/-- `buckets[hash].push(*x)` with a panic (`none`) on an out-of-range index. -/
def pushAt (buckets : List (List ℕ)) (i x : ℕ) : Option (List (List ℕ)) :=
  if h : i < buckets.length then some (buckets.set i (buckets.get ⟨i, h⟩ ++ [x])) else none

/-- The key-distribution loop of `PerfectHashing::new`. -/
def distributeKeys (hfn : SeededHash32) : List (List ℕ) → List ℕ → Option (List (List ℕ))
  | buckets, [] => some buckets
  | buckets, x :: xs =>
    match pushAt buckets (hfn.hash x) x with
    | none => none
    | some b2 => distributeKeys hfn b2 xs

/-- `sum_of_squares` of `PerfectHashing::new`. -/
def sumSquares (buckets : List (List ℕ)) : ℕ :=
  (buckets.map (fun b => b.length ^ 2)).sum

/-- The sub-table construction loop of `PerfectHashing::new`, threading the
supply of random draws through the successive `Bucket::new` calls. -/
def buildSubTables : List (List ℕ) → List (ℕ × ℕ) → Option (List Bucket × List (ℕ × ℕ))
  | [], draws => some ([], draws)
  | vb :: rest, draws =>
    match Bucket.new vb draws with
    | none => none
    | some (b, draws2) =>
      match buildSubTables rest draws2 with
      | none => none
      | some (bs, draws3) => some (b :: bs, draws3)

/-- Outer structure `struct PerfectHashing` of `old_main.rs`. -/
structure PerfectHashing where
  vec : List Bucket
  hash_function : SeededHash32
deriving DecidableEq

/-- `PerfectHashing::new` of `old_main.rs`: outer size `4*C*N`, distribute with
a freshly drawn outer hash, restart from scratch whenever
`sum_of_squares > array_len` (an unbounded loop in the source, modelled by the
finite supply of draws), else build all sub-tables.  `log2u(0)` panics
(`none`), as does an empty draw supply. -/
def PerfectHashing.new (input : List ℕ) : List (ℕ × ℕ) → Option PerfectHashing
  | [] => none
  | (ra, rb) :: rest =>
    let arrayLen := 4 * Cconst * input.length
    if arrayLen = 0 then none
    else
      let hfn : SeededHash32 := { l := log2u arrayLen, a := ra, b := rb }
      match distributeKeys hfn (List.replicate arrayLen []) input with
      | none => none
      | some buckets =>
        if sumSquares buckets > arrayLen then PerfectHashing.new input rest
        else
          match buildSubTables buckets rest with
          | none => none
          | some (bs, _) => some { vec := bs, hash_function := hfn }

/-- `PerfectHashing::query` of `old_main.rs`. -/
def PerfectHashing.query (p : PerfectHashing) (elem : ℕ) : Option Bool :=
  let i := p.hash_function.hash elem
  if h : i < p.vec.length then (p.vec.get ⟨i, h⟩).query elem else none

/-! ### Mathematical (spec-side) values -/

/-- Total of all deltas inserted for key `k` in the update sequence `us`. -/
def keySum (us : List (ℕ × ℕ)) (k : ℕ) : ℕ :=
  ((us.filter (fun u => u.1 = k)).map Prod.snd).sum

/-- The exact second frequency moment of an update sequence, written as in the
spec: the sum over distinct inserted keys of the square of that key's
accumulated value. -/
def F2 (us : List (ℕ × ℕ)) : ℕ :=
  (((us.map Prod.fst).dedup).map (fun k => keySum us k ^ 2)).sum

/-- The degree-3 polynomial of the spec:
`k = ((((a*x + b) mod p) * x + c) mod p) * x + d) mod p`. -/
def polyK (a b c d x : ℕ) : ℕ :=
  ((((a * x + b) % mersennePrime) * x + c) % mersennePrime * x + d) % mersennePrime

/-! ### Association-list view of a chained bucket -/

/-- Flatten an association list into the source's even/odd bucket layout. -/
def flatB : List (ℕ × ℕ) → List ℕ
  | [] => []
  | (k, v) :: rest => k :: v :: flatB rest

/-- Abstract effect of the bucket scan on the association-list view. -/
def updB (key value : ℕ) : List (ℕ × ℕ) → List (ℕ × ℕ)
  | [] => [(key, value)]
  | (k, v) :: rest =>
    if k = key then (k, (v + value) % M64) :: rest else (k, v) :: updB key value rest

/-- Keys of an association list. -/
def keysOf (b : List (ℕ × ℕ)) : List ℕ := b.map Prod.fst

/-- Sum of squared stored values of an association list. -/
def sumSqB (b : List (ℕ × ℕ)) : ℕ := (b.map (fun p => p.2 ^ 2)).sum

/-- The keys at even indices of a flat bucket, as scanned by `HwC::insert`. -/
def bucketKeys : List ℕ → List ℕ
  | [] => []
  | [k] => [k]
  | k :: _ :: rest => k :: bucketKeys rest

/-! ### Basic facts about the multiply-shift hash -/

/-- The multiply-shift output always fits in `l` bits. -/
theorem SeededHash.hash_lt (h : SeededHash) (x : ℕ) : h.hash x < 2 ^ h.l := by
  unfold SeededHash.hash
  have hv : (h.a * x % M64 + h.b) % M64 < M64 := Nat.mod_lt _ (by norm_num [M64])
  rcases le_or_lt h.l 64 with hl | hl
  · rw [Nat.shiftRight_eq_div_pow]
    apply Nat.div_lt_iff_lt_mul (Nat.pos_pow_of_pos _ (by norm_num)) |>.2
    calc (h.a * x % M64 + h.b) % M64 < M64 := hv
    _ = 2 ^ (64 - h.l) * 2 ^ h.l := by rw [← pow_add, M64]; congr 1; omega
    _ = 2 ^ h.l * 2 ^ (64 - h.l) := by ring
  · rw [Nat.sub_eq_zero_of_le hl.le, Nat.shiftRight_zero]
    exact hv.trans_le (by rw [M64]; exact Nat.pow_le_pow_right (by norm_num) hl.le)

/-- `2 ^ log2u n ≤ n` for positive `n` (with enough fuel the fuelled floor log
is the true floor log). -/
theorem log2Aux_pow_le (fuel : ℕ) : ∀ n, 1 ≤ n → n ≤ fuel → 2 ^ log2Aux fuel n ≤ n := by
  induction fuel with
  | zero => intro n h1 h2; omega
  | succ m ih =>
    intro n h1 h2
    unfold log2Aux
    by_cases h : 2 ≤ n
    · rw [if_pos h, pow_succ]
      have hrec : 2 ^ log2Aux m (n / 2) ≤ n / 2 := ih (n / 2) (by omega) (by omega)
      calc 2 ^ log2Aux m (n / 2) * 2 ≤ n / 2 * 2 := by omega
      _ ≤ n := by omega
    · rw [if_neg h]; omega

/-- `2 ^ log2u n ≤ n` for `n ≥ 1`. -/
theorem pow_log2u_le (n : ℕ) (hn : 1 ≤ n) : 2 ^ log2u n ≤ n :=
  log2Aux_pow_le n n hn le_rfl

/-- Claim C3: for every 64-bit key `x` and every multiply-shift hash with
`0 < l ≤ 64`, `hash x` equals `((a*x + b) mod 2^64) >>> (64 - l)` and lies in
`[0, 2^l)`. -/
theorem multiply_shift_hash_spec (h : SeededHash) (x : ℕ) (hx : x < 2 ^ 64)
    (hl0 : 0 < h.l) (hl : h.l ≤ 64) :
    h.hash x = ((h.a * x + h.b) % 2 ^ 64) >>> (64 - h.l) ∧ h.hash x < 2 ^ h.l := by
  constructor
  · show ((h.a * x % M64 + h.b) % M64) >>> (64 - h.l) = _
    rw [Nat.mod_add_mod, M64]
  · exact h.hash_lt x

/-- Witness for C3 at a concrete hash and key. -/
theorem multiply_shift_hash_spec_witness :
    SeededHash.hash ⟨20, 3, 5⟩ 7 = ((3 * 7 + 5) % 2 ^ 64) >>> (64 - 20) ∧
      SeededHash.hash ⟨20, 3, 5⟩ 7 < 2 ^ 20 :=
  multiply_shift_hash_spec ⟨20, 3, 5⟩ 7 (by norm_num) (by norm_num) (by norm_num)

/-- Claim C8: every multiply-shift hash returned by `SeededHash::new` (draw
`ra ∈ [1, 2^63)`, bumped to `ra + 1` if even) has an odd multiplier `a`. -/
theorem seededhash_new_odd_a (hash_len ra rb : ℕ) (h1 : 1 ≤ ra) (h2 : ra < 2 ^ 63) :
    Odd (SeededHash.new hash_len ra rb).a := by
  show Odd (if ra % 2 = 0 then ra + 1 else ra)
  by_cases h : ra % 2 = 0
  · rw [if_pos h]; exact Nat.odd_iff.2 (by omega)
  · rw [if_neg h]; exact Nat.odd_iff.2 (by omega)

/-- Witness for C8 at a concrete draw. -/
theorem seededhash_new_odd_a_witness : Odd (SeededHash.new 5 2 0).a :=
  seededhash_new_odd_a 5 2 0 (by norm_num) (by norm_num)

/-! ### The four-wise hash parameters and output -/

/-- Counterexample for claim C9 as stated: `random_generator(1, 2^31)` can
return `2^31 - 1 = p` itself, so a constructed hash can have `a = p`, which is
not strictly less than the Mersenne prime. -/
theorem independenthash_draw_can_equal_p :
    (1 ≤ 2 ^ 31 - 1 ∧ (2 ^ 31 - 1 : ℕ) < 2 ^ 31) ∧
      (IndependentHash.new 7 (2 ^ 31 - 1) 1 1 1).a = mersennePrime ∧
      ¬ (IndependentHash.new 7 (2 ^ 31 - 1) 1 1 1).a < mersennePrime := by
  refine ⟨⟨by norm_num, by norm_num⟩, rfl, by norm_num [IndependentHash.new, mersennePrime]⟩

/-- Claim C9 amended: every `IndependentHash` built from valid draws of
`random_generator(1, 2^31)` has each parameter in `[1, 2^31)`, i.e. at least
`1` and at most (not strictly below) the Mersenne prime `p = 2^31 - 1`. -/
theorem independenthash_params_in_closed_range (hash_len ra rb rc rd : ℕ)
    (ha : 1 ≤ ra ∧ ra < 2 ^ 31) (hb : 1 ≤ rb ∧ rb < 2 ^ 31)
    (hc : 1 ≤ rc ∧ rc < 2 ^ 31) (hd : 1 ≤ rd ∧ rd < 2 ^ 31) :
    (1 ≤ (IndependentHash.new hash_len ra rb rc rd).a ∧
        (IndependentHash.new hash_len ra rb rc rd).a ≤ mersennePrime) ∧
      (1 ≤ (IndependentHash.new hash_len ra rb rc rd).b ∧
        (IndependentHash.new hash_len ra rb rc rd).b ≤ mersennePrime) ∧
      (1 ≤ (IndependentHash.new hash_len ra rb rc rd).c ∧
        (IndependentHash.new hash_len ra rb rc rd).c ≤ mersennePrime) ∧
      (1 ≤ (IndependentHash.new hash_len ra rb rc rd).d ∧
        (IndependentHash.new hash_len ra rb rc rd).d ≤ mersennePrime) := by
  simp only [IndependentHash.new, mersennePrime]
  omega

/-- Witness for the amended C9 at concrete draws. -/
theorem independenthash_params_in_closed_range_witness :
    (1 ≤ (IndependentHash.new 3 5 6 7 8).a ∧
        (IndependentHash.new 3 5 6 7 8).a ≤ mersennePrime) ∧
      (1 ≤ (IndependentHash.new 3 5 6 7 8).b ∧
        (IndependentHash.new 3 5 6 7 8).b ≤ mersennePrime) ∧
      (1 ≤ (IndependentHash.new 3 5 6 7 8).c ∧
        (IndependentHash.new 3 5 6 7 8).c ≤ mersennePrime) ∧
      (1 ≤ (IndependentHash.new 3 5 6 7 8).d ∧
        (IndependentHash.new 3 5 6 7 8).d ≤ mersennePrime) :=
  independenthash_params_in_closed_range 3 5 6 7 8 (by norm_num) (by norm_num)
    (by norm_num) (by norm_num)

/-- Claim C4: for keys `x < p` and constructor-range parameters, the four-wise
hash returns `(h, g)` with `k` the degree-3 polynomial of `x` mod `p`,
`h = (k >>> 1) &&& (2^l - 1)` in `[0, 2^l)`, and `g = 2*(k mod 2) - 1` equal to
`-1` or `1`. -/
theorem fourwise_hash_spec (H : IndependentHash) (x : ℕ)
    (ha : H.a < 2 ^ 31) (hb : H.b < 2 ^ 31) (hc : H.c < 2 ^ 31) (hd : H.d < 2 ^ 31)
    (hx : x < mersennePrime) :
    H.hash x = ((polyK H.a H.b H.c H.d x >>> 1) &&& (2 ^ H.l - 1),
        2 * ((polyK H.a H.b H.c H.d x % 2 : ℕ) : ℤ) - 1) ∧
      (H.hash x).1 < 2 ^ H.l ∧ ((H.hash x).2 = -1 ∨ (H.hash x).2 = 1) := by
  have hp : mersennePrime < 2 ^ 31 := by norm_num [mersennePrime]
  have hppos : 0 < mersennePrime := by norm_num [mersennePrime]
  have hx31 : x < 2 ^ 31 := hx.trans hp
  have hsmall : ∀ a b : ℕ, a < 2 ^ 31 → b < 2 ^ 31 →
      (a * x % M64 + b) % M64 = a * x + b := by
    intro a b h1 h2
    have hm : a * x ≤ 2 ^ 31 * 2 ^ 31 := Nat.mul_le_mul h1.le hx31.le
    have hm1 : a * x < M64 := by unfold M64; norm_num at hm ⊢; omega
    have hm2 : a * x + b < M64 := by unfold M64; norm_num at hm ⊢; omega
    rw [Nat.mod_eq_of_lt hm1, Nat.mod_eq_of_lt hm2]
  have heq : H.hash x = ((polyK H.a H.b H.c H.d x >>> 1) &&& (2 ^ H.l - 1),
      2 * ((polyK H.a H.b H.c H.d x % 2 : ℕ) : ℤ) - 1) := by
    unfold IndependentHash.hash polyK
    dsimp only
    rw [hsmall H.a H.b ha hb,
      hsmall _ H.c (Nat.mod_lt _ hppos |>.trans hp) hc,
      hsmall _ H.d (Nat.mod_lt _ hppos |>.trans hp) hd,
      Nat.and_one_is_mod]
  refine ⟨heq, ?_, ?_⟩
  · rw [heq]
    exact lt_of_le_of_lt Nat.and_le_right
      (Nat.sub_lt (Nat.pos_pow_of_pos _ (by norm_num)) (by norm_num))
  · rw [heq]
    rcases Nat.mod_two_eq_zero_or_one (polyK H.a H.b H.c H.d x) with h0 | h1
    · left; rw [h0]; norm_num
    · right; rw [h1]; norm_num

/-- Witness for C4 at a concrete hash and key. -/
theorem fourwise_hash_spec_witness :
    IndependentHash.hash ⟨5, 6, 7, 8, 3⟩ 9 = ((polyK 5 6 7 8 9 >>> 1) &&& (2 ^ 3 - 1),
        2 * ((polyK 5 6 7 8 9 % 2 : ℕ) : ℤ) - 1) ∧
      (IndependentHash.hash ⟨5, 6, 7, 8, 3⟩ 9).1 < 2 ^ 3 ∧
      ((IndependentHash.hash ⟨5, 6, 7, 8, 3⟩ 9).2 = -1 ∨
        (IndependentHash.hash ⟨5, 6, 7, 8, 3⟩ 9).2 = 1) :=
  fourwise_hash_spec ⟨5, 6, 7, 8, 3⟩ 9 (by norm_num) (by norm_num) (by norm_num)
    (by norm_num) (by norm_num [mersennePrime])

/-! ### Linearity of the norm sketch -/

/-- `wrap64` respects congruence modulo `2^64`. -/
theorem wrap64_congr {a b : ℤ} (h : Int.ModEq (2 ^ 64) a b) : wrap64 a = wrap64 b := by
  unfold wrap64
  rw [Int.ModEq.add_right (2 ^ 63) h]

/-- `wrap64 a` is congruent to `a` modulo `2^64`. -/
theorem wrap64_modEq (a : ℤ) : Int.ModEq (2 ^ 64) (wrap64 a) a := by
  unfold wrap64
  have h1 : Int.ModEq (2 ^ 64) ((a + 2 ^ 63) % 2 ^ 64) (a + 2 ^ 63) :=
    Int.emod_emod_of_dvd _ dvd_rfl
  have h2 := h1.sub_right (2 ^ 63)
  rwa [add_sub_cancel_right] at h2

/-- Two wrapped additions into the same cell equal one wrapped addition of the
sum. -/
theorem wrap64_add_add (x a b : ℤ) :
    wrap64 (wrap64 (x + wrap64 a) + wrap64 b) = wrap64 (x + wrap64 (a + b)) := by
  apply wrap64_congr
  calc wrap64 (x + wrap64 a) + wrap64 b
      ≡ (x + wrap64 a) + b [ZMOD 2 ^ 64] := (wrap64_modEq _).add (wrap64_modEq b)
    _ ≡ (x + a) + b [ZMOD 2 ^ 64] := ((wrap64_modEq a).add_left x).add_right b
    _ = x + (a + b) := by ring
    _ ≡ x + wrap64 (a + b) [ZMOD 2 ^ 64] := ((wrap64_modEq (a + b)).add_left x).symm

/-- Wrapped accumulation commutes. -/
theorem wrap64_acc_comm (x a b : ℤ) :
    wrap64 (wrap64 (x + a) + b) = wrap64 (wrap64 (x + b) + a) := by
  apply wrap64_congr
  calc wrap64 (x + a) + b ≡ (x + a) + b [ZMOD 2 ^ 64] := (wrap64_modEq _).add_right b
    _ = (x + b) + a := by ring
    _ ≡ wrap64 (x + b) + a [ZMOD 2 ^ 64] := ((wrap64_modEq (x + b)).symm).add_right a

/-- Updating the same key twice equals one update with the summed delta, with
bit-identical counters. -/
theorem update_update_eq (s : NormSketch) (k : ℕ) (v1 v2 : ℤ) :
    (s.update k v1).bind (fun t => t.update k v2) = s.update k (v1 + v2) := by
  unfold NormSketch.update
  by_cases h : (s.hash_function.hash k).1 < s.vec.length
  · simp only [dif_pos h, Option.some_bind]
    have hlen : (s.vec.set (s.hash_function.hash k).1
        (wrap64 (s.vec.get ⟨(s.hash_function.hash k).1, h⟩ +
          wrap64 ((s.hash_function.hash k).2 * v1)))).length = s.vec.length :=
      List.length_set ..
    rw [dif_pos (by rw [hlen]; exact h)]
    congr 1
    rw [NormSketch.mk.injEq]
    refine ⟨?_, rfl⟩
    rw [List.set_set]
    congr 1
    rw [List.get_eq_getElem, List.getElem_set, if_pos rfl, List.get_eq_getElem,
      wrap64_add_add]
    congr 2
    ring
  · simp only [dif_neg h, Option.none_bind]

/-- List form of the commutation of two wrapped cell additions. -/
theorem set_wrap_comm (v : List ℤ) (i1 i2 : ℕ) (w1 w2 : ℤ)
    (h1 : i1 < v.length) (h2 : i2 < v.length)
    (h2b : i2 < (v.set i1 (wrap64 (v.get ⟨i1, h1⟩ + w1))).length)
    (h1b : i1 < (v.set i2 (wrap64 (v.get ⟨i2, h2⟩ + w2))).length) :
    (v.set i1 (wrap64 (v.get ⟨i1, h1⟩ + w1))).set i2
        (wrap64 ((v.set i1 (wrap64 (v.get ⟨i1, h1⟩ + w1))).get ⟨i2, h2b⟩ + w2)) =
      (v.set i2 (wrap64 (v.get ⟨i2, h2⟩ + w2))).set i1
        (wrap64 ((v.set i2 (wrap64 (v.get ⟨i2, h2⟩ + w2))).get ⟨i1, h1b⟩ + w1)) := by
  by_cases he : i1 = i2
  · subst he
    rw [List.set_set, List.set_set]
    congr 1
    simp only [List.get_eq_getElem, List.getElem_set, if_pos rfl]
    exact wrap64_acc_comm _ w1 w2
  · simp only [List.get_eq_getElem, List.getElem_set, if_neg he, if_neg (Ne.symm he)]
    exact List.set_comm _ _ _ he

/-- Two updates (possibly of different keys) commute. -/
theorem update_comm (s : NormSketch) (k1 k2 : ℕ) (v1 v2 : ℤ) :
    (s.update k1 v1).bind (fun t => t.update k2 v2) =
      (s.update k2 v2).bind (fun t => t.update k1 v1) := by
  unfold NormSketch.update
  by_cases h1 : (s.hash_function.hash k1).1 < s.vec.length
  · by_cases h2 : (s.hash_function.hash k2).1 < s.vec.length
    · simp only [dif_pos h1, dif_pos h2, Option.some_bind]
      rw [dif_pos (by rw [List.length_set]; exact h2),
        dif_pos (by rw [List.length_set]; exact h1)]
      congr 1
      rw [NormSketch.mk.injEq]
      exact ⟨set_wrap_comm s.vec _ _ _ _ h1 h2 _ _, rfl⟩
    · simp only [dif_pos h1, dif_neg h2, Option.some_bind, Option.none_bind]
      rw [dif_neg (by rw [List.length_set]; exact h2)]
  · by_cases h2 : (s.hash_function.hash k2).1 < s.vec.length
    · simp only [dif_neg h1, dif_pos h2, Option.some_bind, Option.none_bind]
      rw [dif_neg (by rw [List.length_set]; exact h1)]
    · simp only [dif_neg h1, dif_neg h2, Option.none_bind]

/-- Unfolding step of `applyNormUpdates`. -/
theorem applyNormUpdates_cons (s : NormSketch) (u : ℕ × ℤ) (l : List (ℕ × ℤ)) :
    applyNormUpdates s (u :: l) =
      (s.update u.1 u.2).bind (fun t => applyNormUpdates t l) := by
  cases h : s.update u.1 u.2 <;> simp [applyNormUpdates, h]

/-- Permutation invariance of a batch of sketch updates. -/
theorem applyNormUpdates_perm {us us' : List (ℕ × ℤ)} (hp : us.Perm us') :
    ∀ s : NormSketch, applyNormUpdates s us = applyNormUpdates s us' := by
  induction hp with
  | nil => intro s; rfl
  | cons x _ ih =>
    intro s
    rw [applyNormUpdates_cons, applyNormUpdates_cons]
    cases s.update x.1 x.2 <;> simp [ih]
  | swap x y l =>
    intro s
    rw [applyNormUpdates_cons, applyNormUpdates_cons]
    have hx : ∀ t : NormSketch, applyNormUpdates t (x :: l) =
        (t.update x.1 x.2).bind (fun t2 => applyNormUpdates t2 l) :=
      fun t => applyNormUpdates_cons t x l
    have hy : ∀ t : NormSketch, applyNormUpdates t (y :: l) =
        (t.update y.1 y.2).bind (fun t2 => applyNormUpdates t2 l) :=
      fun t => applyNormUpdates_cons t y l
    simp only [hx, hy, ← Option.bind_assoc]
    rw [update_comm]
  | trans _ _ ih1 ih2 => intro s; exact (ih1 s).trans (ih2 s)

/-- Claim C6: on a `NormSketch`, `update k δ₁` then `update k δ₂` leaves the
counters bit-identical to a single `update k (δ₁ + δ₂)`, and any permutation of
the same multiset of updates produces identical counters. -/
theorem normsketch_linearity (s : NormSketch) (k : ℕ) (v1 v2 : ℤ)
    (us us' : List (ℕ × ℤ)) (hp : us.Perm us') :
    (s.update k v1).bind (fun t => t.update k v2) = s.update k (v1 + v2) ∧
      applyNormUpdates s us = applyNormUpdates s us' :=
  ⟨update_update_eq s k v1 v2, applyNormUpdates_perm hp s⟩

/-- Witness for C6 at a concrete sketch, key, deltas and permutation. -/
theorem normsketch_linearity_witness :
    ((NormSketch.new 4 1 1 1 1).update 0 2).bind (fun t => t.update 0 3) =
        (NormSketch.new 4 1 1 1 1).update 0 (2 + 3) ∧
      applyNormUpdates (NormSketch.new 4 1 1 1 1) [(0, 1), (1, 2)] =
        applyNormUpdates (NormSketch.new 4 1 1 1 1) [(1, 2), (0, 1)] :=
  normsketch_linearity (NormSketch.new 4 1 1 1 1) 0 2 3 [(0, 1), (1, 2)]
    [(1, 2), (0, 1)] (List.Perm.swap (1, 2) (0, 1) [])

/-! ### Representation lemmas for chained buckets -/

/-- The source's bucket scan is exactly `updB` on the association-list view. -/
theorem bucketInsert_flatB (key value : ℕ) (b : List (ℕ × ℕ)) :
    bucketInsert key value (flatB b) = some (flatB (updB key value b)) := by
  induction b with
  | nil => rfl
  | cons p rest ih =>
    obtain ⟨k, v⟩ := p
    show bucketInsert key value (k :: v :: flatB rest) = _
    by_cases hk : k = key
    · simp [bucketInsert, updB, flatB, hk]
    · simp [bucketInsert, updB, flatB, hk, ih]

/-- The even-index keys of a flat bucket are the association-list keys. -/
theorem bucketKeys_flatB (b : List (ℕ × ℕ)) : bucketKeys (flatB b) = keysOf b := by
  induction b with
  | nil => rfl
  | cons p rest ih =>
    obtain ⟨k, v⟩ := p
    show bucketKeys (k :: v :: flatB rest) = _
    simp only [bucketKeys, keysOf, List.map_cons]
    rw [ih]
    rfl

/-- A flat bucket has even length. -/
theorem flatB_length (b : List (ℕ × ℕ)) : (flatB b).length = 2 * b.length := by
  induction b with
  | nil => rfl
  | cons p rest ih =>
    obtain ⟨k, v⟩ := p
    show (k :: v :: flatB rest).length = _
    simp only [List.length_cons, ih]
    omega

/-- Appending one update changes only the targeted key's accumulated sum. -/
theorem keySum_append (us : List (ℕ × ℕ)) (key value k : ℕ) :
    keySum (us ++ [(key, value)]) k =
      if k = key then keySum us k + value else keySum us k := by
  unfold keySum
  rw [List.filter_append]
  by_cases h : k = key
  · subst h
    rw [if_pos rfl]
    simp
  · rw [if_neg h]
    have h2 : ¬ ((key, value).1 = k) := fun hq => h hq.symm
    simp [h2]

/-- A key never inserted has accumulated sum `0`. -/
theorem keySum_eq_zero (us : List (ℕ × ℕ)) (k : ℕ) (h : k ∉ us.map Prod.fst) :
    keySum us k = 0 := by
  unfold keySum
  have hf : us.filter (fun u => u.1 = k) = [] := by
    rw [List.filter_eq_nil_iff]
    intro a ha
    simp only [decide_eq_true_eq]
    intro hq
    exact h (List.mem_map.2 ⟨a, ha, hq⟩)
  rw [hf]
  rfl

/-! ### Lemmas about the abstract bucket update -/

/-- Unfolding of `updB` on a matching head. -/
theorem updB_cons_eq (key value v : ℕ) (rest : List (ℕ × ℕ)) :
    updB key value ((key, v) :: rest) = (key, (v + value) % M64) :: rest := by
  show (if key = key then _ else _) = _
  rw [if_pos rfl]

/-- Unfolding of `updB` on a non-matching head. -/
theorem updB_cons_ne (key value k v : ℕ) (rest : List (ℕ × ℕ)) (hk : k ≠ key) :
    updB key value ((k, v) :: rest) = (k, v) :: updB key value rest := by
  show (if k = key then _ else _) = _
  rw [if_neg hk]

/-- Key membership after an abstract bucket update. -/
theorem mem_keysOf_updB (key value k' : ℕ) (b : List (ℕ × ℕ)) :
    k' ∈ keysOf (updB key value b) ↔ k' = key ∨ k' ∈ keysOf b := by
  induction b with
  | nil => simp [updB, keysOf]
  | cons p rest ih =>
    obtain ⟨k, v⟩ := p
    by_cases hk : k = key
    · subst hk
      rw [updB_cons_eq]
      simp only [keysOf, List.map_cons, List.mem_cons]
      tauto
    · rw [updB_cons_ne _ _ _ _ _ hk]
      simp only [keysOf, List.map_cons, List.mem_cons] at ih ⊢
      rw [ih]
      tauto

/-- Updating an already-present key leaves the key list unchanged. -/
theorem keysOf_updB_mem (key value : ℕ) (b : List (ℕ × ℕ)) (h : key ∈ keysOf b) :
    keysOf (updB key value b) = keysOf b := by
  induction b with
  | nil => simp [keysOf] at h
  | cons p rest ih =>
    obtain ⟨k, v⟩ := p
    by_cases hk : k = key
    · subst hk
      rw [updB_cons_eq]
      rfl
    · simp only [keysOf, List.map_cons, List.mem_cons] at h
      rcases h with h1 | h2
      · exact absurd h1.symm hk
      · rw [updB_cons_ne _ _ _ _ _ hk]
        simp only [keysOf, List.map_cons]
        rw [show (updB key value rest).map Prod.fst = keysOf (updB key value rest) from rfl,
          ih h2]
        rfl

/-- An abstract bucket update preserves distinctness of the keys. -/
theorem keysOf_updB_nodup (key value : ℕ) (b : List (ℕ × ℕ))
    (h : (keysOf b).Nodup) : (keysOf (updB key value b)).Nodup := by
  induction b with
  | nil => simp [updB, keysOf]
  | cons p rest ih =>
    obtain ⟨k, v⟩ := p
    simp only [keysOf, List.map_cons, List.nodup_cons] at h
    by_cases hk : k = key
    · subst hk
      rw [updB_cons_eq]
      simp only [keysOf, List.map_cons, List.nodup_cons]
      exact h
    · rw [updB_cons_ne _ _ _ _ _ hk]
      simp only [keysOf, List.map_cons, List.nodup_cons]
      refine ⟨?_, ih h.2⟩
      intro hmem
      rcases (mem_keysOf_updB key value k rest).1 hmem with h1 | h2
      · exact hk h1
      · exact h.1 h2

/-- Every pair of an updated bucket either carries the updated key or was
already present. -/
theorem mem_updB_cases (key value : ℕ) (b : List (ℕ × ℕ)) (p : ℕ × ℕ)
    (hp : p ∈ updB key value b) : p.1 = key ∨ p ∈ b := by
  induction b with
  | nil =>
    simp only [updB, List.mem_singleton] at hp
    exact Or.inl (by rw [hp])
  | cons q rest ih =>
    obtain ⟨k, v⟩ := q
    by_cases hk : k = key
    · subst hk
      rw [updB_cons_eq] at hp
      rcases List.mem_cons.1 hp with h1 | h2
      · exact Or.inl (by rw [h1])
      · exact Or.inr (List.mem_cons_of_mem _ h2)
    · rw [updB_cons_ne _ _ _ _ _ hk] at hp
      rcases List.mem_cons.1 hp with h1 | h2
      · exact Or.inr (List.mem_cons.2 (Or.inl h1))
      · rcases ih h2 with ha | hb
        · exact Or.inl ha
        · exact Or.inr (List.mem_cons_of_mem _ hb)

/-- Stored values after an abstract bucket update: every pair carries the
accumulated sum (mod `2^64`) of its key over the extended update sequence. -/
theorem values_updB (us : List (ℕ × ℕ)) (key value : ℕ) (b : List (ℕ × ℕ))
    (hvals : ∀ p ∈ b, p.2 = keySum us p.1 % M64)
    (hnd : (keysOf b).Nodup)
    (hfresh : key ∉ keysOf b → keySum us key = 0)
    (hvlt : value < M64) :
    ∀ p ∈ updB key value b, p.2 = keySum (us ++ [(key, value)]) p.1 % M64 := by
  induction b with
  | nil =>
    intro p hp
    simp only [updB, List.mem_singleton] at hp
    rw [hp]
    show value = keySum (us ++ [(key, value)]) key % M64
    rw [keySum_append, if_pos rfl, hfresh (by simp [keysOf]), Nat.zero_add,
      Nat.mod_eq_of_lt hvlt]
  | cons q rest ih =>
    obtain ⟨k, v⟩ := q
    simp only [keysOf, List.map_cons, List.nodup_cons] at hnd
    by_cases hk : k = key
    · subst hk
      intro p hp
      rw [updB_cons_eq] at hp
      rcases List.mem_cons.1 hp with h1 | h2
      · rw [h1]
        show (v + value) % M64 = keySum (us ++ [(k, value)]) k % M64
        rw [show v = keySum us k % M64 from hvals (k, v) (List.mem_cons_self _ _),
          keySum_append, if_pos rfl, Nat.mod_add_mod]
      · have hne : p.1 ≠ k := by
          intro hq
          exact hnd.1 (hq ▸ List.mem_map.2 ⟨p, h2, rfl⟩)
        rw [keySum_append, if_neg hne]
        exact hvals p (List.mem_cons_of_mem _ h2)
    · intro p hp
      rw [updB_cons_ne _ _ _ _ _ hk] at hp
      rcases List.mem_cons.1 hp with h1 | h2
      · rw [h1, keySum_append]
        show v = (if k = key then keySum us k + value else keySum us k) % M64
        rw [if_neg hk]
        exact hvals (k, v) (List.mem_cons_self _ _)
      · refine ih (fun q hq => hvals q (List.mem_cons_of_mem _ hq)) hnd.2 ?_ p h2
        intro hnm
        apply hfresh
        simp only [keysOf, List.map_cons, List.mem_cons]
        rintro (h1 | h2)
        · exact hk h1.symm
        · exact hnm h2

/-! ### The chained-table invariant -/

/-- Invariant tying an `HwC` state, viewed bucket-by-bucket as association
lists `bs`, to the sequence `us` of updates applied so far: every pair sits in
the bucket its key hashes to, bucket keys are distinct, every stored value is
the accumulated (wrapped) sum for its key, and the stored keys are exactly the
inserted keys. -/
structure HwCInv (h : ℕ → ℕ) (us : List (ℕ × ℕ)) (bs : List (List (ℕ × ℕ))) : Prop where
  bucketed : ∀ i : Fin bs.length, ∀ p ∈ bs.get i, h p.1 = i.1
  nodup : ∀ i : Fin bs.length, (keysOf (bs.get i)).Nodup
  values : ∀ i : Fin bs.length, ∀ p ∈ bs.get i, p.2 = keySum us p.1 % M64
  mem : ∀ k, k ∈ us.map Prod.fst ↔ ∃ i : Fin bs.length, k ∈ keysOf (bs.get i)

/-- Reading a bucket of an updated bucket vector. -/
theorem get_set_ite (bs : List (List (ℕ × ℕ))) (i : ℕ) (x : List (ℕ × ℕ))
    (j : Fin (bs.set i x).length) (hj : j.1 < bs.length) :
    (bs.set i x).get j = if i = j.1 then x else bs.get ⟨j.1, hj⟩ := by
  simp [List.get_eq_getElem, List.getElem_set]

/-- The invariant is preserved by one insert. -/
theorem HwCInv.step {h : ℕ → ℕ} {us : List (ℕ × ℕ)} {bs : List (List (ℕ × ℕ))}
    (inv : HwCInv h us bs) (key value : ℕ) (hi : h key < bs.length)
    (hvlt : value < M64) :
    HwCInv h (us ++ [(key, value)])
      (bs.set (h key) (updB key value (bs.get ⟨h key, hi⟩))) := by
  have hfreshk : key ∉ keysOf (bs.get ⟨h key, hi⟩) → keySum us key = 0 := by
    intro hnm
    apply keySum_eq_zero
    intro hmem
    rcases (inv.mem key).1 hmem with ⟨j, hj⟩
    rcases List.mem_map.1 hj with ⟨p, hp, hfk⟩
    have hb := inv.bucketed j p hp
    have hji : j = (⟨h key, hi⟩ : Fin bs.length) := Fin.ext (by rw [← hb, hfk])
    exact hnm (hji ▸ hj)
  refine ⟨?_, ?_, ?_, ?_⟩
  · intro j p hp
    have hjlen : j.1 < bs.length := by simpa using j.2
    rw [get_set_ite _ _ _ j hjlen] at hp
    by_cases he : h key = j.1
    · rw [if_pos he] at hp
      rcases mem_updB_cases key value _ p hp with h1 | h2
      · rw [h1]; exact he
      · have := inv.bucketed ⟨h key, hi⟩ p ?_
        · rw [this]; exact he
        · have hfe : (⟨j.1, hjlen⟩ : Fin bs.length) = ⟨h key, hi⟩ := Fin.ext he.symm
          exact hfe ▸ h2
    · rw [if_neg he] at hp
      exact inv.bucketed ⟨j.1, hjlen⟩ p hp
  · intro j
    have hjlen : j.1 < bs.length := by simpa using j.2
    rw [get_set_ite _ _ _ j hjlen]
    by_cases he : h key = j.1
    · rw [if_pos he]
      exact keysOf_updB_nodup key value _ (inv.nodup ⟨h key, hi⟩)
    · rw [if_neg he]
      exact inv.nodup ⟨j.1, hjlen⟩
  · intro j p hp
    have hjlen : j.1 < bs.length := by simpa using j.2
    rw [get_set_ite _ _ _ j hjlen] at hp
    by_cases he : h key = j.1
    · rw [if_pos he] at hp
      exact values_updB us key value _ (inv.values ⟨h key, hi⟩)
        (inv.nodup ⟨h key, hi⟩) hfreshk hvlt p hp
    · rw [if_neg he] at hp
      have hb := inv.values ⟨j.1, hjlen⟩ p hp
      have hne : p.1 ≠ key := by
        intro hq
        apply he
        rw [← inv.bucketed ⟨j.1, hjlen⟩ p hp, hq]
      rw [keySum_append, if_neg hne]
      exact hb
  · intro k
    rw [List.map_append, List.mem_append]
    constructor
    · rintro (hold | hnew)
      · rcases (inv.mem k).1 hold with ⟨j, hj⟩
        have hjlen' : j.1 < (bs.set (h key) (updB key value (bs.get ⟨h key, hi⟩))).length := by
          simpa using j.2
        refine ⟨⟨j.1, hjlen'⟩, ?_⟩
        rw [get_set_ite _ _ _ ⟨j.1, hjlen'⟩ j.2]
        by_cases he : h key = j.1
        · rw [if_pos he]
          rw [mem_keysOf_updB]
          right
          have hfe : (⟨h key, hi⟩ : Fin bs.length) = j := Fin.ext he
          rw [hfe]
          simpa using hj
        · rw [if_neg he]
          simpa using hj
      · have hk : k = key := by simpa using hnew
        subst hk
        have hlen' : h k < (bs.set (h k) (updB k value (bs.get ⟨h k, hi⟩))).length := by
          simpa using hi
        refine ⟨⟨h k, hlen'⟩, ?_⟩
        rw [get_set_ite _ _ _ ⟨h k, hlen'⟩ hi, if_pos rfl, mem_keysOf_updB]
        exact Or.inl rfl
    · rintro ⟨j, hj⟩
      have hjlen : j.1 < bs.length := by simpa using j.2
      rw [get_set_ite _ _ _ j hjlen] at hj
      by_cases he : h key = j.1
      · rw [if_pos he] at hj
        rcases (mem_keysOf_updB key value k _).1 hj with h1 | h2
        · right; simpa using h1
        · left; exact (inv.mem k).2 ⟨⟨h key, hi⟩, h2⟩
      · rw [if_neg he] at hj
        left
        exact (inv.mem k).2 ⟨⟨j.1, hjlen⟩, hj⟩

/-- One `HwC::insert` on the concrete table is `updB` on the abstract view. -/
theorem insert_flatB (H : SeededHash) (bs : List (List (ℕ × ℕ))) (key value : ℕ)
    (hi : H.hash key < bs.length) :
    HwC.insert ⟨bs.map flatB, H⟩ key value =
      some ⟨(bs.set (H.hash key) (updB key value (bs.get ⟨H.hash key, hi⟩))).map flatB, H⟩ := by
  unfold HwC.insert
  dsimp only
  have hlen : H.hash key < (bs.map flatB).length := by simpa using hi
  rw [dif_pos hlen]
  have hget : (bs.map flatB).get ⟨H.hash key, hlen⟩ = flatB (bs.get ⟨H.hash key, hi⟩) := by
    simp [List.get_eq_getElem]
  rw [hget, bucketInsert_flatB]
  simp [List.map_set]

/-- Applying a batch of inserts preserves the invariant (and all the source's
index accesses stay in bounds). -/
theorem applyUpdates_inv (H : SeededHash) (more : List (ℕ × ℕ)) :
    ∀ (us : List (ℕ × ℕ)) (bs : List (List (ℕ × ℕ))),
      HwCInv H.hash us bs → (∀ x, H.hash x < bs.length) →
      (∀ u ∈ more, u.2 < M64) →
      ∃ bs', applyUpdates ⟨bs.map flatB, H⟩ more = some ⟨bs'.map flatB, H⟩ ∧
        bs'.length = bs.length ∧ HwCInv H.hash (us ++ more) bs' := by
  induction more with
  | nil =>
    intro us bs inv hr hv
    exact ⟨bs, rfl, rfl, by simpa using inv⟩
  | cons u rest ih =>
    intro us bs inv hr hv
    obtain ⟨key, value⟩ := u
    have hi : H.hash key < bs.length := hr key
    have hstep := inv.step key value hi (hv (key, value) (List.mem_cons_self _ _))
    obtain ⟨bs', happ, hlen, hinv⟩ := ih (us ++ [(key, value)])
      (bs.set (H.hash key) (updB key value (bs.get ⟨H.hash key, hi⟩))) hstep
      (fun x => by rw [List.length_set]; exact hr x)
      (fun q hq => hv q (List.mem_cons_of_mem _ hq))
    refine ⟨bs', ?_, ?_, ?_⟩
    · show applyUpdates _ ((key, value) :: rest) = _
      simp only [applyUpdates, insert_flatB H bs key value hi]
      exact happ
    · rw [hlen, List.length_set]
    · have : us ++ [(key, value)] ++ rest = us ++ ((key, value) :: rest) := by
        rw [List.append_assoc]; rfl
      exact this ▸ hinv

/-- The invariant holds for a fresh table. -/
theorem hwcInv_empty (h : ℕ → ℕ) (n : ℕ) : HwCInv h [] (List.replicate n []) where
  bucketed := by
    intro j p hp
    rw [List.get_replicate] at hp
    simp at hp
  nodup := by
    intro j
    rw [List.get_replicate]
    simp [keysOf]
  values := by
    intro j p hp
    rw [List.get_replicate] at hp
    simp at hp
  mem := by
    intro k
    constructor
    · intro hk; simp at hk
    · rintro ⟨j, hj⟩
      rw [List.get_replicate] at hj
      simp [keysOf] at hj

/-! ### The norm computation -/

/-- `addSquares` over a flat bucket accumulates the squared values mod `2^64`. -/
theorem addSquares_flatB (b : List (ℕ × ℕ)) :
    ∀ s : ℕ, s < M64 → addSquares s (flatB b) = some ((s + sumSqB b) % M64) := by
  induction b with
  | nil =>
    intro s hs
    show some s = _
    simp [sumSqB, Nat.mod_eq_of_lt hs]
  | cons p rest ih =>
    intro s hs
    obtain ⟨k, v⟩ := p
    show addSquares ((s + v ^ 2 % M64) % M64) (flatB rest) = _
    rw [ih _ (Nat.mod_lt _ (by norm_num [M64]))]
    congr 1
    have h1 : sumSqB ((k, v) :: rest) = v ^ 2 + sumSqB rest := by simp [sumSqB]
    rw [h1, Nat.mod_add_mod]
    have h3 : (s + v ^ 2 % M64 + sumSqB rest) % M64 = (s + v ^ 2 + sumSqB rest) % M64 :=
      Nat.ModEq.add_right _ (Nat.ModEq.add_left _ (Nat.mod_modEq _ _))
    rw [h3, Nat.add_assoc]

/-- `normGo` over a table of flat buckets accumulates all squared values mod
`2^64`. -/
theorem normGo_flatB (bs : List (List (ℕ × ℕ))) :
    ∀ s : ℕ, s < M64 → normGo s (bs.map flatB) = some ((s + (bs.map sumSqB).sum) % M64) := by
  induction bs with
  | nil =>
    intro s hs
    show some s = _
    simp [Nat.mod_eq_of_lt hs]
  | cons b rest ih =>
    intro s hs
    show normGo s (flatB b :: rest.map flatB) = _
    simp only [normGo, addSquares_flatB b s hs]
    rw [ih _ (Nat.mod_lt _ (by norm_num [M64]))]
    congr 1
    rw [Nat.mod_add_mod, List.map_cons, List.sum_cons, Nat.add_assoc]

/-- Squared-value sum of the flattened table. -/
theorem sumSqB_flatten (bs : List (List (ℕ × ℕ))) :
    sumSqB bs.flatten = (bs.map sumSqB).sum := by
  unfold sumSqB
  rw [List.map_flatten, List.sum_flatten, List.map_map]
  rfl

/-- Swapping `% M64` in and out of a sum of squares. -/
theorem sum_sq_mod (S : Finset ℕ) (f : ℕ → ℕ) :
    (S.sum fun k => (f k % M64) ^ 2) % M64 = (S.sum fun k => f k ^ 2) % M64 := by
  rw [Finset.sum_nat_mod]
  rw [Finset.sum_congr rfl (fun k _ => by rw [← Nat.pow_mod])]
  rw [← Finset.sum_nat_mod]

/-- The `toFinset` of `dedup` is the `toFinset` of the original list. -/
theorem toFinset_dedup_list (l : List ℕ) : l.dedup.toFinset = l.toFinset := by
  ext a
  simp [List.mem_toFinset, List.mem_dedup]

/-- Under the invariant, the total of stored squared values is `F2` mod `2^64`. -/
theorem sum_sumSqB_eq_F2 (h : ℕ → ℕ) (us : List (ℕ × ℕ)) (bs : List (List (ℕ × ℕ)))
    (inv : HwCInv h us bs) : (bs.map sumSqB).sum % M64 = F2 us % M64 := by
  have hvals : ∀ p ∈ bs.flatten, p.2 = keySum us p.1 % M64 := by
    intro p hp
    rcases List.mem_flatten.1 hp with ⟨b, hb, hpb⟩
    rcases List.mem_iff_get.1 hb with ⟨j, hj⟩
    exact inv.values j p (hj ▸ hpb)
  have hkeys_nodup : (keysOf bs.flatten).Nodup := by
    show (bs.flatten.map Prod.fst).Nodup
    rw [List.map_flatten, List.nodup_flatten]
    constructor
    · intro l hl
      rcases List.mem_map.1 hl with ⟨b, hb, hbl⟩
      rcases List.mem_iff_get.1 hb with ⟨j, hj⟩
      rw [← hbl, ← hj]
      exact inv.nodup j
    · rw [List.pairwise_map, List.pairwise_iff_get]
      intro i j hij a hai haj
      rcases List.mem_map.1 hai with ⟨p, hp, hpa⟩
      rcases List.mem_map.1 haj with ⟨q, hq, hqa⟩
      have h1 := inv.bucketed i p hp
      have h2 := inv.bucketed j q hq
      rw [hpa] at h1
      rw [hqa] at h2
      have : i.1 = j.1 := by rw [← h1, ← h2]
      omega
  have hfin : (keysOf bs.flatten).toFinset = (us.map Prod.fst).toFinset := by
    ext a
    simp only [List.mem_toFinset]
    rw [inv.mem a]
    constructor
    · intro ha
      rcases List.mem_map.1 ha with ⟨p, hp, hpa⟩
      rcases List.mem_flatten.1 hp with ⟨b, hb, hpb⟩
      rcases List.mem_iff_get.1 hb with ⟨j, hj⟩
      exact ⟨j, List.mem_map.2 ⟨p, hj ▸ hpb, hpa⟩⟩
    · rintro ⟨j, hj⟩
      rcases List.mem_map.1 hj with ⟨p, hp, hpa⟩
      exact List.mem_map.2 ⟨p, List.mem_flatten.2 ⟨bs.get j, List.get_mem bs j.1 j.2, hp⟩, hpa⟩
  calc (bs.map sumSqB).sum % M64 = sumSqB bs.flatten % M64 := by rw [sumSqB_flatten]
    _ = ((keysOf bs.flatten).map fun k => (keySum us k % M64) ^ 2).sum % M64 := by
        unfold sumSqB keysOf
        rw [List.map_map]
        congr 2
        apply List.map_congr_left
        intro p hp
        show p.2 ^ 2 = _
        rw [hvals p hp]
        rfl
    _ = ((keysOf bs.flatten).toFinset.sum fun k => (keySum us k % M64) ^ 2) % M64 := by
        rw [List.sum_toFinset _ hkeys_nodup]
    _ = ((us.map Prod.fst).toFinset.sum fun k => (keySum us k % M64) ^ 2) % M64 := by
        rw [hfin]
    _ = ((us.map Prod.fst).toFinset.sum fun k => keySum us k ^ 2) % M64 :=
        sum_sq_mod _ _
    _ = F2 us % M64 := by
        unfold F2
        rw [← toFinset_dedup_list, List.sum_toFinset _ (List.nodup_dedup _)]

/-- Under the invariant, `get_norm` returns exactly `F2 mod 2^64`. -/
theorem get_norm_of_inv (H : SeededHash) (us : List (ℕ × ℕ)) (bs : List (List (ℕ × ℕ)))
    (inv : HwCInv H.hash us bs) :
    HwC.get_norm ⟨bs.map flatB, H⟩ = some (F2 us % M64) := by
  show normGo 0 (bs.map flatB) = _
  rw [normGo_flatB bs 0 (by norm_num [M64])]
  rw [Nat.zero_add, sum_sumSqB_eq_F2 H.hash us bs inv]

/-! ### The chained-table claims -/

/-- The constructor's hash lands inside the table. -/
theorem hwc_new_hash_lt (size ra rb : ℕ) (hs : 1 ≤ size) (x : ℕ) :
    (HwC.new size ra rb).hash_function.hash x < size :=
  lt_of_lt_of_le (SeededHash.hash_lt _ x) (pow_log2u_le size hs)

/-- A fresh table is a table of flattened empty association lists. -/
theorem hwc_new_eq (size ra rb : ℕ) :
    HwC.new size ra rb =
      ⟨(List.replicate size ([] : List (ℕ × ℕ))).map flatB,
        SeededHash.new (log2u size) ra rb⟩ := by
  unfold HwC.new
  rw [HwC.mk.injEq]
  exact ⟨by rw [List.map_replicate]; rfl, rfl⟩

/-- Claim C2: for any update sequence on a fresh `HwC` (positive capacity,
`u64` deltas, no `u64` overflow of the true second moment), all inserts succeed
and `get_norm` returns exactly `Σₖ (Σ δ for k)²`. -/
theorem hwc_norm_exact (size ra rb : ℕ) (hs : 1 ≤ size) (us : List (ℕ × ℕ))
    (hv : ∀ u ∈ us, u.2 < M64) (hF : F2 us < M64) :
    ∃ t, applyUpdates (HwC.new size ra rb) us = some t ∧
      t.get_norm = some (F2 us) := by
  obtain ⟨bs', happ, hlen, hinv⟩ := applyUpdates_inv (SeededHash.new (log2u size) ra rb) us
    [] (List.replicate size []) (hwcInv_empty _ _)
    (fun x => by
      rw [List.length_replicate]
      exact hwc_new_hash_lt size ra rb hs x) hv
  refine ⟨⟨bs'.map flatB, SeededHash.new (log2u size) ra rb⟩, ?_, ?_⟩
  · rw [hwc_new_eq]
    exact happ
  · have hinv' : HwCInv (SeededHash.new (log2u size) ra rb).hash us bs' := by
      simpa using hinv
    rw [get_norm_of_inv _ us bs' hinv', Nat.mod_eq_of_lt hF]

/-- Witness for C2 at a concrete table and update sequence. -/
theorem hwc_norm_exact_witness :
    ∃ t, applyUpdates (HwC.new 4 1 0) [(1, 5), (2, 7), (1, 3)] = some t ∧
      t.get_norm = some (F2 [(1, 5), (2, 7), (1, 3)]) :=
  hwc_norm_exact 4 1 0 (by norm_num) [(1, 5), (2, 7), (1, 3)] (by decide) (by decide)

/-- Claim C7: after any update sequence on a fresh `HwC`, the keys at even
indices of every bucket are pairwise distinct, and re-inserting a key already
present in a bucket leaves the bucket's key list unchanged (the value is
accumulated instead of a second entry being appended). -/
theorem hwc_bucket_keys_distinct (size ra rb : ℕ) (hs : 1 ≤ size) (us : List (ℕ × ℕ))
    (hv : ∀ u ∈ us, u.2 < M64) :
    ∃ t, applyUpdates (HwC.new size ra rb) us = some t ∧
      (∀ bucket ∈ t.vec, (bucketKeys bucket).Nodup) ∧
      (∀ bucket ∈ t.vec, ∀ key value b2, key ∈ bucketKeys bucket →
        bucketInsert key value bucket = some b2 → bucketKeys b2 = bucketKeys bucket) := by
  obtain ⟨bs', happ, hlen, hinv⟩ := applyUpdates_inv (SeededHash.new (log2u size) ra rb) us
    [] (List.replicate size []) (hwcInv_empty _ _)
    (fun x => by
      rw [List.length_replicate]
      exact hwc_new_hash_lt size ra rb hs x) hv
  refine ⟨⟨bs'.map flatB, SeededHash.new (log2u size) ra rb⟩, ?_, ?_, ?_⟩
  · rw [hwc_new_eq]
    exact happ
  · intro bucket hb
    rcases List.mem_map.1 hb with ⟨b, hbmem, hbeq⟩
    rcases List.mem_iff_get.1 hbmem with ⟨j, hj⟩
    rw [← hbeq, bucketKeys_flatB]
    have hinv' : HwCInv (SeededHash.new (log2u size) ra rb).hash us bs' := by
      simpa using hinv
    rw [← hj]
    exact hinv'.nodup j
  · intro bucket hb key value b2 hkmem hins
    rcases List.mem_map.1 hb with ⟨b, hbmem, hbeq⟩
    rw [← hbeq] at hkmem hins ⊢
    rw [bucketInsert_flatB] at hins
    have hb2 : b2 = flatB (updB key value b) := (Option.some_inj.1 hins).symm
    rw [hb2, bucketKeys_flatB, bucketKeys_flatB]
    rw [bucketKeys_flatB] at hkmem
    exact keysOf_updB_mem key value b hkmem

/-- Witness for C7 at a concrete table and update sequence. -/
theorem hwc_bucket_keys_distinct_witness :
    ∃ t, applyUpdates (HwC.new 2 1 0) [(0, 1), (0, 2), (1, 3)] = some t ∧
      (∀ bucket ∈ t.vec, (bucketKeys bucket).Nodup) ∧
      (∀ bucket ∈ t.vec, ∀ key value b2, key ∈ bucketKeys bucket →
        bucketInsert key value bucket = some b2 → bucketKeys b2 = bucketKeys bucket) :=
  hwc_bucket_keys_distinct 2 1 0 (by norm_num) [(0, 1), (0, 2), (1, 3)] (by decide)

/-- Claim C10: after any update sequence on a fresh `HwC` of capacity at least
one, the table is a vector of flattened key/value pair lists (keys at even
indices, values at the adjacent odd indices), every bucket has even length, and
the `i+1` accesses of `insert` and `get_norm` all stay in bounds: every insert
returns `some` and so does `get_norm`. -/
theorem hwc_even_buckets (size ra rb : ℕ) (hs : 1 ≤ size) (us : List (ℕ × ℕ))
    (hv : ∀ u ∈ us, u.2 < M64) :
    ∃ t, applyUpdates (HwC.new size ra rb) us = some t ∧
      (∃ bs : List (List (ℕ × ℕ)), t.vec = bs.map flatB) ∧
      (∀ bucket ∈ t.vec, Even bucket.length) ∧
      t.get_norm.isSome = true := by
  obtain ⟨bs', happ, hlen, hinv⟩ := applyUpdates_inv (SeededHash.new (log2u size) ra rb) us
    [] (List.replicate size []) (hwcInv_empty _ _)
    (fun x => by
      rw [List.length_replicate]
      exact hwc_new_hash_lt size ra rb hs x) hv
  have hinv' : HwCInv (SeededHash.new (log2u size) ra rb).hash us bs' := by
    simpa using hinv
  refine ⟨⟨bs'.map flatB, SeededHash.new (log2u size) ra rb⟩, ?_, ⟨bs', rfl⟩, ?_, ?_⟩
  · rw [hwc_new_eq]
    exact happ
  · intro bucket hb
    rcases List.mem_map.1 hb with ⟨b, hbmem, hbeq⟩
    rw [← hbeq, flatB_length]
    exact even_two_mul _
  · rw [get_norm_of_inv _ us bs' hinv']
    rfl

/-- Witness for C10 at a concrete table and update sequence. -/
theorem hwc_even_buckets_witness :
    ∃ t, applyUpdates (HwC.new 8 3 5) [(3, 4), (5, 6)] = some t ∧
      (∃ bs : List (List (ℕ × ℕ)), t.vec = bs.map flatB) ∧
      (∀ bucket ∈ t.vec, Even bucket.length) ∧
      t.get_norm.isSome = true :=
  hwc_even_buckets 8 3 5 (by norm_num) [(3, 4), (5, 6)] (by decide)

/-! ### The perfect-hashing claims -/

/-- Random draws (all valid outputs of `random_generator(1, 2^31)`) under which
`PerfectHashing::new [0, 16]` builds without any retry: one outer draw, one
sub-table draw for the bucket holding `{0, 16}`, and one draw for each of the
15 empty sub-tables. -/
def c1Draws : List (ℕ × ℕ) := (2 ^ 28, 1) :: (2 ^ 28, 1) :: List.replicate 15 (1, 1)

/-- Claim C1 is violated by the code (the spec itself flags the zero sentinel
as a bug): building a `PerfectSet` from the distinct keys `{0, 16}` with the
valid RNG draws `c1Draws` succeeds, yet `query 0` returns `false` even though
`0` is a member — inserting `0` writes the sentinel value, so `16` later
overwrites its slot. -/
theorem perfecthashing_drops_zero :
    ((PerfectHashing.new [0, 16] c1Draws).bind (fun p => p.query 0) = some false) ∧
      0 ∈ [0, 16] := by
  constructor
  · rfl
  · simp

/-- The keys `0, 16, …, 128`: with outer hash draw `a = 2^28, b = 1` they all
land in outer bucket `0`, so `sum_of_squares = 81 > 72 = array_len` and the
construction restarts. -/
def c5Input : List ℕ := [0, 16, 32, 48, 64, 80, 96, 112, 128]

/-- One failed outer attempt consumes one draw and restarts. -/
theorem perfecthashing_retry_step (rest : List (ℕ × ℕ)) :
    PerfectHashing.new c5Input ((2 ^ 28, 1) :: rest) = PerfectHashing.new c5Input rest := rfl

/-- Claim C5 is violated by the code: `PerfectHashing::new` enforces no retry
cap at all.  Under a pathological RNG that always returns the draw
`(2^28, 1)`, construction keeps restarting forever — for every finite number
`n` of retries it has made no progress and surfaced no error. -/
theorem perfecthashing_no_retry_cap (n : ℕ) :
    PerfectHashing.new c5Input (List.replicate n (2 ^ 28, 1)) = none := by
  induction n with
  | zero => rfl
  | succ m ih => rw [List.replicate_succ, perfecthashing_retry_step, ih]
